import Mathlib

/-!
Verification of the `upset` configuration-management tool (`src/upset/lib.py`
and `src/upset/upset.py`) against its natural-language specification.

The Python code is shallowly embedded: filesystem state becomes explicit
state values, float mtimes become integers (only their ordering matters),
Python exceptions become `Except`/`Option` results, and Python's `re` module
is abstracted as a structure of search/substitute functions.
-/

namespace Upset

/- ------------------------------------------------------------------ -/
/- `Fs.backup` (lib.py lines 52-77).                                   -/
/- ------------------------------------------------------------------ -/

/-- The filesystem restricted to one path `P` and its backup family.
`original` says whether `P` itself currently exists as a regular file or
directory (the `path.is_file() or path.is_dir()` guard of `Fs.backup`);
`backups` lists the suffix indices `n` whose backup path already exists
(`n = 0` stands for `P~`, `n ≥ 1` for `P~n~`). -/
structure BackupState where
  original : Bool
  backups : List Nat
deriving Repr, DecidableEq

/-- Outcome of one `Fs.backup` call: the resulting state, the number of
renames performed and, when a rename happened, the chosen suffix index. -/
structure BackupResult where
  state : BackupState
  renames : Nat
  chosen : Option Nat
deriving Repr, DecidableEq

/-- The recursion of `Fs.backup`: probe suffix `number`; if that backup
path exists, retry with `number + 1`, otherwise rename `P` onto it.  The
recursion of the Python code is bounded here by explicit fuel; `none`
means the fuel ran out (shown unreachable for the fuel used below). -/
def backupAux (st : BackupState) : Nat → Nat → Option BackupResult
  | 0, _ => none
  | fuel + 1, number =>
    if number ∈ st.backups then
      backupAux st fuel (number + 1)
    else
      some ⟨⟨false, number :: st.backups⟩, 1, some number⟩

/-- Fuel that always suffices: one more than the largest existing backup
index, so the index `max + 1` is guaranteed to be probed if needed. -/
def backupFuel (st : BackupState) : Nat :=
  st.backups.foldr max 0 + 2

/-- `Fs.backup(path)`: no-op when `P` is neither a regular file nor a
directory, otherwise rename `P` to the first unused backup suffix. -/
def backup (st : BackupState) : Option BackupResult :=
  if st.original then backupAux st (backupFuel st) 0
  else some ⟨st, 0, none⟩

/- ------------------------------------------------------------------ -/
/- `Fs.ensure_file` replacement decision (lib.py lines 109-157).       -/
/- ------------------------------------------------------------------ -/

/-- The `mode` argument of `Fs.ensure_file`. -/
inductive EnsureMode where
  | asis
  | force
  | update
deriving Repr, DecidableEq

/-- The decision of `Fs.ensure_file` whether to (re)write the target,
given the kind of entity at the target path and the mtimes of the
template source and the target (floats in Python, integers here; only
their ordering is used).  Mirrors lib.py lines 137-154: a directory is
always overwritten (with a warning); an existing regular file is kept
under `asis`, always rewritten under `force`, and under `update` kept
only when `target_mtime > source_mtime`; a missing target is created. -/
def ensure_file_replaces (mode : EnsureMode) (target_is_dir target_is_file : Bool)
    (source_mtime target_mtime : Int) : Bool :=
  if target_is_dir then
    true
  else if target_is_file then
    match mode with
    | .asis => false
    | .force => true
    | .update => if target_mtime > source_mtime then false else true
  else
    true

/- ------------------------------------------------------------------ -/
/- Python format strings and `Upset.expand_task_leaves`                -/
/- (upset.py lines 252-276).                                           -/
/- ------------------------------------------------------------------ -/

/-- A fragment of a Python format string: literal text, or a placeholder
referencing a named binding (what `str.format` writes between braces). -/
inductive Frag where
  | lit (s : String)
  | var (name : String)
deriving Repr, DecidableEq

/-- A Python string, parsed into format-string fragments. -/
abbrev FmtString := List Frag

/-- One iteration's binding map (a Python `dict[str, str]`). -/
abbrev Bindings := List (String × String)

/-- Dictionary lookup used by `str.format(**var)`. -/
def lookupVar (var : Bindings) (name : String) : Option String :=
  (var.find? (fun p => p.1 == name)).map Prod.snd

/-- `leaf.format(**var)`: substitute every placeholder; a placeholder
whose name is absent from `var` raises `KeyError` carrying that name
(the error value here). -/
def formatStr (s : FmtString) (var : Bindings) : Except String String :=
  match s with
  | [] => .ok ""
  | .lit t :: rest => (formatStr rest var).map (fun r => t ++ r)
  | .var n :: rest =>
    match lookupVar var n with
    | some v => (formatStr rest var).map (fun r => v ++ r)
    | none => .error n

/-- Render a format string back to the raw Python source string
(placeholders are printed back between braces). -/
def rawString (s : FmtString) : String :=
  match s with
  | [] => ""
  | .lit t :: rest => t ++ rawString rest
  | .var n :: rest => "\x7b" ++ n ++ "\x7d" ++ rawString rest

mutual
/-- A JSON-like tree as traversed by `Upset.expand_task_leaves`:
strings, scalars, sequences and string-keyed mappings. -/
inductive Value where
  | str (s : FmtString)
  | num (n : Int)
  | bool (b : Bool)
  | null
  | arr (items : ValueList)
  | dict (entries : ValueDict)
deriving Repr

/-- A sequence of tree values. -/
inductive ValueList where
  | nil
  | cons (hd : Value) (tl : ValueList)
deriving Repr

/-- A mapping with (format-)string keys and tree values, in insertion
order as Python dicts preserve it. -/
inductive ValueDict where
  | nil
  | cons (key : FmtString) (val : Value) (tl : ValueDict)
deriving Repr
end

instance : Inhabited Value := ⟨.null⟩

/-- The `lib.UpsetError` raised by `expand_task_leaves` on an unresolved
variable: it names the offending string (`leaf`) and the binding map
(`bindings`), mirroring the message built at upset.py lines 271-273. -/
structure ExpandErr where
  leaf : FmtString
  bindings : Bindings
deriving Repr, DecidableEq

mutual
/-- `Upset.expand_task_leaves`: traverse lists and dictionaries and
format every string against `var`; non-string scalars pass through;
the first unresolved placeholder aborts the whole expansion. -/
def expandLeaves (var : Bindings) : Value → Except ExpandErr Value
  | .str s =>
    match formatStr s var with
    | .ok r => .ok (.str [.lit r])
    | .error _ => .error ⟨s, var⟩
  | .num n => .ok (.num n)
  | .bool b => .ok (.bool b)
  | .null => .ok .null
  | .arr items =>
    match expandList var items with
    | .ok items' => .ok (.arr items')
    | .error e => .error e
  | .dict entries =>
    match expandDict var entries with
    | .ok entries' => .ok (.dict entries')
    | .error e => .error e

/-- Expansion of a sequence, in order (the list comprehension at
upset.py line 264). -/
def expandList (var : Bindings) : ValueList → Except ExpandErr ValueList
  | .nil => .ok .nil
  | .cons hd tl =>
    match expandLeaves var hd with
    | .error e => .error e
    | .ok hd' =>
      match expandList var tl with
      | .error e => .error e
      | .ok tl' => .ok (.cons hd' tl')

/-- Expansion of a mapping: each key is formatted as well, then its
value, in insertion order (the dict comprehension at upset.py
lines 266-268). -/
def expandDict (var : Bindings) : ValueDict → Except ExpandErr ValueDict
  | .nil => .ok .nil
  | .cons k v tl =>
    match formatStr k var with
    | .error _ => .error ⟨k, var⟩
    | .ok ks =>
      match expandLeaves var v with
      | .error e => .error e
      | .ok v' =>
        match expandDict var tl with
        | .error e => .error e
        | .ok tl' => .ok (.cons [.lit ks] v' tl')
end

/-- Does this format string reference a binding name absent from `var`? -/
def fmtUnresolved (var : Bindings) (s : FmtString) : Bool :=
  s.any (fun f =>
    match f with
    | .lit _ => false
    | .var n => (lookupVar var n).isNone)

mutual
/-- Does some string leaf or mapping key of the tree reference a binding
name absent from `var`? -/
def hasUnresolved (var : Bindings) : Value → Bool
  | .str s => fmtUnresolved var s
  | .num _ => false
  | .bool _ => false
  | .null => false
  | .arr items => listHasUnresolved var items
  | .dict entries => dictHasUnresolved var entries

/-- `hasUnresolved` over a sequence. -/
def listHasUnresolved (var : Bindings) : ValueList → Bool
  | .nil => false
  | .cons hd tl => hasUnresolved var hd || listHasUnresolved var tl

/-- `hasUnresolved` over a mapping (keys included). -/
def dictHasUnresolved (var : Bindings) : ValueDict → Bool
  | .nil => false
  | .cons k v tl =>
    fmtUnresolved var k || hasUnresolved var v || dictHasUnresolved var tl
end

mutual
/-- Does the string `s` occur in the tree as a string leaf or mapping
key? -/
def strOccurs (s : FmtString) : Value → Bool
  | .str t => s == t
  | .num _ => false
  | .bool _ => false
  | .null => false
  | .arr items => strOccursList s items
  | .dict entries => strOccursDict s entries

/-- `strOccurs` over a sequence. -/
def strOccursList (s : FmtString) : ValueList → Bool
  | .nil => false
  | .cons hd tl => strOccurs s hd || strOccursList s tl

/-- `strOccurs` over a mapping (keys included). -/
def strOccursDict (s : FmtString) : ValueDict → Bool
  | .nil => false
  | .cons k v tl => s == k || strOccurs s v || strOccursDict s tl
end

/- ------------------------------------------------------------------ -/
/- `Helper.create_unique_file_name` (lib.py lines 766-776).            -/
/- ------------------------------------------------------------------ -/

/-- The separator `'___'` used by `Helper.create_unique_file_name`. -/
def sepUnderscores : List Char := ['_', '_', '_']

/-- Python `'sep'.join(parts)` on character lists. -/
def joinSep (sep : List Char) : List (List Char) → List Char
  | [] => []
  | [x] => x
  | x :: y :: xs => x ++ sep ++ joinSep sep (y :: xs)

/-- The components of a resolved absolute path, i.e.
`pathlib.Path(p).parts[1:]`: the slash-separated nonempty segments. -/
def pathComponentsAux (cur : List Char) : List Char → List (List Char)
  | [] => if cur = [] then [] else [cur.reverse]
  | c :: rest =>
    if c = '/' then
      if cur = [] then pathComponentsAux [] rest
      else cur.reverse :: pathComponentsAux [] rest
    else
      pathComponentsAux (c :: cur) rest

/-- See `pathComponentsAux`. -/
def pathComponents (p : List Char) : List (List Char) :=
  pathComponentsAux [] p

/-- `Helper.create_unique_file_name(file)`:
`'___'.join(file.resolve().parts[1:])`, on an already-resolved absolute
path given as a character list. -/
def create_unique_file_name (path : List Char) : List Char :=
  joinSep sepUnderscores (pathComponents path)

/-- String-typed wrapper of `create_unique_file_name`. -/
def uniqueNameStr (p : String) : String :=
  String.mk (create_unique_file_name p.data)

/- ------------------------------------------------------------------ -/
/- `Task`, `Upset.expand_task` and `Upset.transform_task_to_data`      -/
/- (upset.py lines 20-28, 233-250 and 395-420).                        -/
/- ------------------------------------------------------------------ -/

/-- The `Task` class: name, plugin, foreach iterations, the variables
tree (field `vars` here, as `variables` is a reserved word in Lean) and
a files mapping of logical name to local path; string fields hold
format strings, as they are expanded per iteration. -/
structure Task where
  name : String
  plugin : String
  foreach : List Bindings
  vars : Value
  files : List (FmtString × FmtString)
deriving Inhabited

/-- The payload built by `transform_task_to_data` for the plugin. -/
structure TaskData where
  name : String
  plugin : String
  vars : Value
  files : List (FmtString × FmtString)
  forTask : Bindings

/-- A heap of `Task` objects: Python object identity is modelled by the
index into this list, so aliasing (two references to one object) is the
same index. -/
abbrev TaskHeap := List Task

/-- Expansion of the `files` dict of a task (a string-to-string dict,
keys first, mirroring `expand_task_leaves` on it). -/
def expandFiles (var : Bindings) : List (FmtString × FmtString) →
    Except ExpandErr (List (FmtString × FmtString))
  | [] => .ok []
  | (k, v) :: rest =>
    match formatStr k var with
    | .error _ => .error ⟨k, var⟩
    | .ok ks =>
      match formatStr v var with
      | .error _ => .error ⟨v, var⟩
      | .ok vs =>
        match expandFiles var rest with
        | .error e => .error e
        | .ok rest' => .ok (([.lit ks], ([.lit vs] : FmtString)) :: rest')

/-- `Upset.expand_task(task, var)`: with an empty binding map the very
same object is returned (`if not var: return task`, upset.py line 240);
otherwise a new `Task` is allocated whose `variables` and `files` are
expanded copies (and whose `foreach` is the constructor default `[]`).
Returns the heap and the index of the resulting object. -/
def expand_task (heap : TaskHeap) (id : Nat) (var : Bindings) :
    Except ExpandErr (TaskHeap × Nat) :=
  if var.isEmpty then .ok (heap, id)
  else
    let t := heap.getD id default
    match expandLeaves var t.vars with
    | .error e => .error e
    | .ok vars' =>
      match expandFiles var t.files with
      | .error e => .error e
      | .ok files' =>
        .ok (heap ++ [⟨t.name, t.plugin, [], vars', files'⟩], heap.length)

/-- `Upset.transform_task_to_data(task, for_variable)`: rewrites the
task's `files` values **in place** to the remote names produced by
`create_unique_file_name` (upset.py lines 410-412) and returns the
payload dictionary built from the same, now rewritten, object. -/
def transform_task_to_data (heap : TaskHeap) (id : Nat) (forVar : Bindings) :
    TaskHeap × TaskData :=
  let t := heap.getD id default
  let files' := t.files.map
    (fun p => (p.1, ([.lit (uniqueNameStr (rawString p.2))] : FmtString)))
  let t' := { t with files := files' }
  (heap.set id t', ⟨t.name, t.plugin, t.vars, files', forVar⟩)

/-- One iteration of the loop in `Upset.run` (upset.py lines 140-154)
restricted to the operations that touch the `Task` object: expand the
task for the binding map `var`, then run `transform_task_to_data` on
the expansion result as `run_task` does. -/
def processIteration (heap : TaskHeap) (id : Nat) (var : Bindings) :
    Except ExpandErr (TaskHeap × TaskData) :=
  match expand_task heap id var with
  | .error e => .error e
  | .ok (heap1, eid) => .ok (transform_task_to_data heap1 eid var)

/- ------------------------------------------------------------------ -/
/- The orchestrator's dedup state and artifact transfers               -/
/- (`Upset.__init__`, `Upset.send_plugin`, `Upset.send_files`,         -/
/- upset.py lines 83-86, 279-321, 323-355).                            -/
/- ------------------------------------------------------------------ -/

/-- An artifact copied to the remote workspace: the plugin file of a
task, or a named file under its unique remote name. -/
inductive Transfer where
  | plugin (name : String)
  | file (name : String) (remote : String)
deriving Repr, DecidableEq

/-- The orchestrator's process-wide dedup state: `Upset._sent_plugins`
and `Upset._sent_files`, both initialised empty in `Upset.__init__`. -/
structure OrchState where
  sent_plugins : List String
  sent_files : List String
deriving Repr, DecidableEq

/-- `Upset.send_plugin`: skip when the plugin name was already sent;
otherwise copy it (one transfer) and append the name to
`_sent_plugins`. -/
def send_plugin (st : OrchState) (plugin : String) : OrchState × List Transfer :=
  if plugin ∈ st.sent_plugins then (st, [])
  else ({ st with sent_plugins := st.sent_plugins ++ [plugin] }, [.plugin plugin])

/-- `Upset.send_files`: iterate over the expanded task's files in
order; a logical name already recorded in `_sent_files` is skipped
entirely (`continue`); otherwise the file is copied under the remote
name `create_unique_file_name(path)` and the logical name appended to
`_sent_files`. -/
def send_files (st : OrchState) : List (String × String) → OrchState × List Transfer
  | [] => (st, [])
  | (name, file) :: rest =>
    if name ∈ st.sent_files then send_files st rest
    else
      let st1 := { st with sent_files := st.sent_files ++ [name] }
      let res := send_files st1 rest
      (res.1, .file name (uniqueNameStr file) :: res.2)

/-- One task of a plan as the transfer logic of `Upset.run` sees it:
its plugin name and, for each foreach iteration, the files mapping of
the expanded task of that iteration. -/
structure PlanTask where
  plugin : String
  iterations : List (List (String × String))

/-- The inner loop of `Upset.run`: one `send_files` call per foreach
iteration, threading the dedup state. -/
def runIterations (st : OrchState) :
    List (List (String × String)) → OrchState × List Transfer
  | [] => (st, [])
  | files :: rest =>
    let r1 := send_files st files
    let r2 := runIterations r1.1 rest
    (r2.1, r1.2 ++ r2.2)

/-- The task loop of `Upset.run` (upset.py lines 130-154): per task one
`send_plugin` call, then the per-iteration `send_files` calls. -/
def runPlan (st : OrchState) : List PlanTask → OrchState × List Transfer
  | [] => (st, [])
  | task :: rest =>
    let rp := send_plugin st task.plugin
    let ri := runIterations rp.1 task.iterations
    let rr := runPlan ri.1 rest
    (rr.1, rp.2 ++ ri.2 ++ rr.2)

/-- The file transfers of a log that carry the logical name `n`. -/
def fileTransfersFor (n : String) (log : List Transfer) : List Transfer :=
  log.filter (fun t => match t with | .file m _ => m == n | .plugin _ => false)

/-- How often a file with logical name `n` was transferred. -/
def countFile (n : String) (log : List Transfer) : Nat :=
  (fileTransfersFor n log).length

/-- How often the plugin named `p` was transferred. -/
def countPlugin (p : String) (log : List Transfer) : Nat :=
  (log.filter (fun t => match t with | .plugin q => q == p | .file _ _ => false)).length

/-- The path bound to the first occurrence of logical name `n` in a
files mapping. -/
def firstPathFor (n : String) : List (String × String) → Option String
  | [] => none
  | (m, p) :: rest => if m = n then some p else firstPathFor n rest

/-- 1 when the logical file name `n` is recorded as sent, else 0. -/
def chargeF (st : OrchState) (n : String) : Nat :=
  if n ∈ st.sent_files then 1 else 0

/-- 1 when the plugin name `p` is recorded as sent, else 0. -/
def chargeP (st : OrchState) (p : String) : Nat :=
  if p ∈ st.sent_plugins then 1 else 0

/- ------------------------------------------------------------------ -/
/- `Fs.ensure_perms` (lib.py lines 300-390).                           -/
/- ------------------------------------------------------------------ -/

/-- Metadata of a filesystem entry as `ensure_perms` reads and writes
it: the numeric permission mode and the owner and group names. -/
structure FileMeta where
  mode : Nat
  owner : String
  group : String
deriving Repr, DecidableEq

/-- The local user and group databases consulted by `pwd.getpwnam` and
`grp.getgrnam`. -/
structure SysDb where
  users : List String
  groups : List String
deriving Repr

/-- How an `ensure_perms` call can fail: `fsError` is the
`UpsetFsError` raised from the `except OSError`/`except ValueError`
handlers; `keyError` models the Python `KeyError` raised by
`pwd.getpwnam` / `grp.getgrnam` for an unknown name — `KeyError` is not
an `OSError`, so it escapes `ensure_perms` uncaught. -/
inductive PermFailure where
  | fsError
  | keyError (name : String)
deriving Repr, DecidableEq

/-- `oct(n)[2:]`: the octal digit string of a mode value, as
`ensure_perms` computes it for comparison with the user input. -/
def octString (n : Nat) : String :=
  String.mk (Nat.toDigits 8 n)

/-- `int(s, 8)` on a string of octal digits (the argument `chmod`
receives). -/
def parseOct (s : String) : Nat :=
  s.data.foldl (fun acc c => acc * 8 + (c.toNat - 48)) 0

/-- The try-block of `ensure_perms` (lib.py lines 375-387) once the
owner, group and mode strings are resolved: `chmod` first (when the
mode string differs from the current octal mode string and is not
`-`), then look up and apply the owner (skipped when the requested
owner equals the current owner or is `-`), then likewise the group.
An unknown name makes the lookup raise `KeyError`; the mode change
already performed persists, and owner/group stay unchanged. -/
def applyPerms (db : SysDb) (meta : FileMeta) (owner group mode : String) :
    FileMeta × Option PermFailure :=
  let meta1 := if mode ≠ octString meta.mode ∧ mode ≠ "-"
    then { meta with mode := parseOct mode } else meta
  if owner ≠ meta.owner ∧ owner ≠ "-" then
    if owner ∈ db.users then
      let meta2 := { meta1 with owner := owner }
      if group ≠ meta.group ∧ group ≠ "-" then
        if group ∈ db.groups then ({ meta2 with group := group }, none)
        else (meta2, some (.keyError group))
      else (meta2, none)
    else (meta1, some (.keyError owner))
  else
    if group ≠ meta.group ∧ group ≠ "-" then
      if group ∈ db.groups then ({ meta1 with group := group }, none)
      else (meta1, some (.keyError group))
    else (meta1, none)

/-- Python `s.split(',')`. -/
def splitCommaAux (cur : List Char) : List Char → List String
  | [] => [String.mk cur.reverse]
  | c :: rest =>
    if c = ',' then String.mk cur.reverse :: splitCommaAux [] rest
    else splitCommaAux (c :: cur) rest

/-- See `splitCommaAux`. -/
def splitComma (s : String) : List String :=
  splitCommaAux [] s.data

/-- `Fs.ensure_perms(path, permissions)` for a path with metadata
`meta` whose resolved parent has metadata `parent`: `-` and `-,-,-`
leave everything as is; a symlink is never touched; `.` inherits the
whole triple from the parent; otherwise the string must split on `,`
into exactly three fields, each `-` (keep) or `.` (inherit that field)
or a literal value, and the try-block applies them.  A malformed
string raises `UpsetFsError` (the `except ValueError` handler). -/
def ensure_perms (db : SysDb) (isSymlink : Bool) (parent meta : FileMeta)
    (permissions : String) : FileMeta × Option PermFailure :=
  if permissions = "-" ∨ permissions = "-,-,-" then (meta, none)
  else if isSymlink then (meta, none)
  else if permissions = "." then
    applyPerms db meta parent.owner parent.group (octString parent.mode)
  else
    match splitComma permissions with
    | [o, g, m] =>
      applyPerms db meta
        (if o = "." then parent.owner else o)
        (if g = "." then parent.group else g)
        (if m = "." then octString parent.mode else m)
    | _ => (meta, some .fsError)

/- ------------------------------------------------------------------ -/
/- A filesystem model for `Fs.remove` and `Fs.ensure_link`             -/
/- (lib.py lines 79-107 and 179-208).                                  -/
/- ------------------------------------------------------------------ -/

/-- A filesystem entry: a regular file or a directory (with an inode
number identifying the underlying object), a symbolic link storing its
target path, or nothing. -/
inductive Entry where
  | file (ino : Nat)
  | dir (ino : Nat)
  | symlink (target : String)
  | absent
deriving Repr, DecidableEq

/-- A filesystem: the paths carrying a non-absent entry.  Symlinks are
modelled one level deep: a symlink's stored target is itself expected
to be a non-symlink path (no symlink chains). -/
abbrev FsState := List (String × Entry)

/-- The entry at a path. -/
def entryAt (fs : FsState) (p : String) : Entry :=
  match fs with
  | [] => .absent
  | (q, e) :: rest => if q = p then e else entryAt rest p

/-- Drop the entry at a path (`path.unlink()` / `path.rmdir()`). -/
def removeEntry (fs : FsState) (p : String) : FsState :=
  match fs with
  | [] => []
  | (q, e) :: rest =>
    if q = p then removeEntry rest p else (q, e) :: removeEntry rest p

/-- Create or replace the entry at a path. -/
def setEntry (fs : FsState) (p : String) (e : Entry) : FsState :=
  (p, e) :: removeEntry fs p

/-- `path.is_symlink()`. -/
def isSymlink (fs : FsState) (p : String) : Bool :=
  match entryAt fs p with
  | .symlink _ => true
  | _ => false

/-- `path.resolve()` in the chain-free model: follow a symlink one
step. -/
def resolvePath (fs : FsState) (p : String) : String :=
  match entryAt fs p with
  | .symlink t => t
  | _ => p

/-- `path.exists()`: follows symlinks; a dangling symlink does not
exist. -/
def existsAt (fs : FsState) (p : String) : Bool :=
  match entryAt fs (resolvePath fs p) with
  | .file _ => true
  | .dir _ => true
  | _ => false

/-- The inode of the object a path finally refers to, if any. -/
def inodeAt (fs : FsState) (p : String) : Option Nat :=
  match entryAt fs (resolvePath fs p) with
  | .file i => some i
  | .dir i => some i
  | _ => none

/-- `a.samefile(b)`: both refer to the same underlying object. -/
def sameFile (fs : FsState) (a b : String) : Bool :=
  match inodeAt fs a, inodeAt fs b with
  | some i, some j => i == j
  | _, _ => false

/-- The backup suffix string: `~` or `~N~`. -/
def backupSuffix (n : Nat) : String :=
  if n > 0 then "~" ++ String.mk (Nat.toDigits 10 n) ++ "~" else "~"

/-- The backup path probed by `Fs.backup` at index `n`. -/
def backupPath (p : String) (n : Nat) : String :=
  p ++ backupSuffix n

/-- `Fs.backup` on the filesystem model: when `p` is (after following
symlinks) a regular file or directory, rename it to the first backup
path for which `backup_path.exists()` is false; fuelled as in
`backupAux`. -/
def fsBackupAux (fs : FsState) (p : String) : Nat → Nat → Option FsState
  | 0, _ => none
  | fuel + 1, number =>
    if existsAt fs (backupPath p number) then fsBackupAux fs p fuel (number + 1)
    else some (setEntry (removeEntry fs p) (backupPath p number) (entryAt fs p))

/-- See `fsBackupAux`. -/
def fsBackup (fs : FsState) (p : String) : Option FsState :=
  if existsAt fs p then fsBackupAux fs p (fs.length + 1) 0
  else some fs

/-- `Fs.remove(path, backup)` (lib.py lines 79-107): optionally back up
first; if the path no longer exists afterwards there is nothing left to
do; otherwise unlink/rmdir it. -/
def fsRemove (fs : FsState) (p : String) (backup : Bool) : Option FsState :=
  match (if backup then fsBackup fs p else some fs) with
  | none => none
  | some fs1 =>
    if existsAt fs1 p then some (removeEntry fs1 p) else some fs1

/-- `Fs.ensure_link(path, target, backup)` (lib.py lines 179-208): an
existing symlink that exists and resolves to the same underlying file
as the (existing) target is kept; **any other symlink is unlinked
without backup** (`path.unlink()`, line 203); a non-symlink existing
entry goes through `Fs.remove(path, backup)`; finally the new symlink
is created. -/
def ensure_link (fs : FsState) (path target : String) (backup : Bool) :
    Option FsState :=
  if isSymlink fs path then
    if existsAt fs path && existsAt fs target &&
        sameFile fs (resolvePath fs path) target then
      some fs
    else
      some (setEntry (removeEntry fs path) path (.symlink target))
  else if existsAt fs path then
    match fsRemove fs path backup with
    | none => none
    | some fs1 => some (setEntry fs1 path (.symlink target))
  else
    some (setEntry fs path (.symlink target))

/- ------------------------------------------------------------------ -/
/- `Fs.ensure_in_file` (lib.py lines 392-438).                         -/
/- ------------------------------------------------------------------ -/

/-- An abstraction of Python's `re` module as `ensure_in_file` uses it:
`search pat hay` decides whether `pat` matches somewhere in `hay`
(`re.search`), and `sub pat repl hay` replaces the matches of `pat` in
`hay` by `repl` (`re.sub`). -/
structure Re where
  search : String → String → Bool
  sub : String → String → String → String

/-- The default `insert_at` pattern of `ensure_in_file`: Python's raw
regular expression anchoring the end of the string (backslash-Z). -/
def zEnd : String :=
  "\\Z"

/-- The outcome of `ensure_in_file`: the file content afterwards (the
file exists afterwards in every case, created empty by `touch` if it
was absent), whether a backup was made, and whether the file was
rewritten. -/
structure InFileResult where
  content : String
  didBackup : Bool
  didWrite : Bool
deriving Repr, DecidableEq

/-- The haystack read by `ensure_in_file`: the file's content, or the
empty string the fresh `touch`ed file holds when it was absent. -/
def fileText (content0 : Option String) : String :=
  match content0 with
  | none => ""
  | some s => s

/-- `Fs.ensure_in_file(path, text, insert_at, needle, backup)`: create
the file if absent (`path.touch()`), use `text` itself as the search
pattern when no needle is given, return unchanged (no backup, no
write) if the pattern already matches the content, otherwise back up
exactly when requested and write `re.sub(insert_at, text, haystack)`
back to the file. -/
def ensure_in_file (re : Re) (content0 : Option String)
    (text insert_at needle : String) (backup : Bool) : InFileResult :=
  let haystack := fileText content0
  let needle1 := if needle = "" then text else needle
  if re.search needle1 haystack then ⟨haystack, false, false⟩
  else ⟨re.sub insert_at text haystack, backup, true⟩

/-- `p` is an initial run of `s` (character lists). -/
def charsLead (p s : List Char) : Bool :=
  match p, s with
  | [], _ => true
  | _ :: _, [] => false
  | a :: ps, b :: ss => a == b && charsLead ps ss

/-- `p` occurs contiguously inside `s` (character lists). -/
def charsInside (p : List Char) : List Char → Bool
  | [] => charsLead p []
  | c :: rest => charsLead p (c :: rest) || charsInside p rest

/-- Literal-pattern regex semantics, enough for concrete runs: search
is substring containment and substitution implements the default
end-of-string pattern (append) while leaving other patterns alone. -/
def reLit : Re :=
  ⟨fun pat hay => charsInside pat.data hay.data,
   fun pat repl hay => if pat = zEnd then hay ++ repl else hay⟩

/- ------------------------------------------------------------------ -/
/- Concrete instances used by witnesses and counterexamples.           -/
/- ------------------------------------------------------------------ -/

/-- A filesystem where `p` is a symlink to `q`, and `t` is a distinct
regular file: `p` is an existing but incorrect symlink for target `t`. -/
def fsLink : FsState :=
  [("p", .symlink "q"), ("q", .file 1), ("t", .file 2)]

/-- A filesystem where `p` is already a correct symlink to `t`. -/
def fsLinkOk : FsState :=
  [("p", .symlink "t"), ("t", .file 1)]

/-- A concrete task with one file reference, used at concrete inputs. -/
def taskA : Task :=
  ⟨"faketask", "fakeplugin", [], .null, [([Frag.lit "t"], [Frag.lit "/a/b"])]⟩

end Upset

namespace Upset

/- ------------------------------------------------------------------ -/
/- Theorems for claim C1 and claim C2.                                 -/
/- ------------------------------------------------------------------ -/

theorem mem_le_foldr_max (a : Nat) (l : List Nat) (h : a ∈ l) :
    a ≤ l.foldr max 0 := by
  induction l with
  | nil => cases h
  | cons b l ih =>
    rcases List.mem_cons.mp h with rfl | h'
    · exact le_max_left _ _
    · exact le_trans (ih h') (le_max_right _ _)

theorem backupAux_finds (st : BackupState) :
    ∀ (fuel start : Nat), (∃ k, k < fuel ∧ (start + k) ∉ st.backups) →
    ∃ n, backupAux st fuel start = some ⟨⟨false, n :: st.backups⟩, 1, some n⟩ ∧
      n ∉ st.backups ∧ start ≤ n ∧ ∀ m, start ≤ m → m < n → m ∈ st.backups := by
  intro fuel
  induction fuel with
  | zero =>
    intro start h
    rcases h with ⟨k, hk, _⟩
    exact absurd hk (Nat.not_lt_zero k)
  | succ fuel ih =>
    intro start h
    by_cases hmem : start ∈ st.backups
    · have h' : ∃ k, k < fuel ∧ (start + 1 + k) ∉ st.backups := by
        rcases h with ⟨k, hk, hout⟩
        match k with
        | 0 =>
          exact absurd (by simpa using hmem) (by simpa using hout)
        | k + 1 =>
          refine ⟨k, Nat.lt_of_succ_lt_succ hk, ?_⟩
          have : start + 1 + k = start + (k + 1) := by omega
          rw [this]
          exact hout
      rcases ih (start + 1) h' with ⟨n, heq, hnmem, hge, hmin⟩
      refine ⟨n, ?_, hnmem, by omega, ?_⟩
      · rw [backupAux, if_pos hmem]
        exact heq
      · intro m hm hmn
        by_cases hms : m = start
        · exact hms ▸ hmem
        · exact hmin m (by omega) hmn
    · refine ⟨start, ?_, hmem, le_refl _, ?_⟩
      · rw [backupAux, if_neg hmem]
      · intro m hm hmn
        omega

/-- C1: when `P` exists as a regular file or directory, `Fs.backup(P)`
succeeds, performs exactly one rename, moves `P` (it no longer exists
afterwards, so it is moved rather than deleted), the chosen backup
suffix index is unused (no prior backup is overwritten) and minimal
(the first unused suffix in the probing order `P~, P~1~, P~2~, …`), and
the set of existing backups grows by exactly that one new member. -/
theorem backup_moves_to_first_unused (st : BackupState) (h : st.original = true) :
    ∃ n, backup st = some ⟨⟨false, n :: st.backups⟩, 1, some n⟩ ∧
      n ∉ st.backups ∧ ∀ m, m < n → m ∈ st.backups := by
  have hfree : ∃ k, k < backupFuel st ∧ (0 + k) ∉ st.backups := by
    refine ⟨st.backups.foldr max 0 + 1, by simp [backupFuel], ?_⟩
    intro hc
    have := mem_le_foldr_max _ _ (by simpa using hc)
    omega
  rcases backupAux_finds st (backupFuel st) 0 hfree with ⟨n, heq, hnmem, _, hmin⟩
  refine ⟨n, ?_, hnmem, ?_⟩
  · simpa [backup, h] using heq
  · intro m hmn
    exact hmin m (Nat.zero_le m) hmn

/-- Witness for C1 at a concrete input: `P` exists and backups with
indices 0 (`P~`) and 1 (`P~1~`) already exist. -/
theorem backup_moves_to_first_unused_witness :
    ∃ n, backup ⟨true, [0, 1]⟩ = some ⟨⟨false, n :: [0, 1]⟩, 1, some n⟩ ∧
      n ∉ [0, 1] ∧ ∀ m, m < n → m ∈ [0, 1] :=
  backup_moves_to_first_unused ⟨true, [0, 1]⟩ rfl

/-- C2 fails as stated: with mode `update`, an existing target file and
equal mtimes `T1 = T2 = 0`, the code replaces the target (the guard is
`target_mtime > source_mtime`, so the tie falls through to replacement),
while the claim requires the target to be left unchanged when `T1 = T2`. -/
theorem ensure_file_update_equal_mtime_counterexample :
    ¬ (ensure_file_replaces .update false true 0 0 = true ↔ (0 : Int) > 0) := by
  decide

/-- C2 amended: with mode `update` and an existing target regular file,
the target is replaced if and only if the template source mtime is
greater than or equal to the target mtime (`T1 ≥ T2`, non-strict). -/
theorem ensure_file_update_replaces_iff (t1 t2 : Int) :
    ensure_file_replaces .update false true t1 t2 = true ↔ t1 ≥ t2 := by
  simp [ensure_file_replaces]

/- ------------------------------------------------------------------ -/
/- Theorems for claim C4 (variable expansion).                         -/
/- ------------------------------------------------------------------ -/

theorem formatStr_ok_of_resolved (var : Bindings) :
    ∀ s : FmtString, fmtUnresolved var s = false → ∃ r, formatStr s var = .ok r := by
  intro s
  induction s with
  | nil => exact fun _ => ⟨"", rfl⟩
  | cons f rest ih =>
    intro h
    simp only [fmtUnresolved, List.any_cons, Bool.or_eq_false_iff] at h
    rcases h with ⟨hf, hrest⟩
    rcases ih (by simpa [fmtUnresolved] using hrest) with ⟨r, hr⟩
    match f with
    | .lit t =>
      exact ⟨t ++ r, by simp [formatStr, hr, Except.map]⟩
    | .var n =>
      rcases ho : lookupVar var n with _ | v
      · simp [ho] at hf
      · exact ⟨v ++ r, by simp [formatStr, ho, hr, Except.map]⟩

theorem formatStr_error_of_unresolved (var : Bindings) :
    ∀ s : FmtString, fmtUnresolved var s = true → ∃ n, formatStr s var = .error n := by
  intro s
  induction s with
  | nil => simp [fmtUnresolved]
  | cons f rest ih =>
    intro h
    match f with
    | .lit t =>
      have hrest : fmtUnresolved var rest = true := by
        simpa [fmtUnresolved] using h
      rcases ih hrest with ⟨n, hn⟩
      exact ⟨n, by simp [formatStr, hn, Except.map]⟩
    | .var m =>
      rcases ho : lookupVar var m with _ | v
      · exact ⟨m, by simp [formatStr, ho]⟩
      · have hrest : fmtUnresolved var rest = true := by
          simpa [fmtUnresolved, ho] using h
        rcases ih hrest with ⟨n, hn⟩
        exact ⟨n, by simp [formatStr, ho, hn, Except.map]⟩

mutual
theorem expandLeaves_ok (var : Bindings) :
    ∀ v : Value, hasUnresolved var v = false → ∃ w, expandLeaves var v = .ok w
  | .str s, h => by
    rcases formatStr_ok_of_resolved var s (by simpa [hasUnresolved] using h) with ⟨r, hr⟩
    exact ⟨.str [.lit r], by simp [expandLeaves, hr]⟩
  | .num n, _ => ⟨.num n, rfl⟩
  | .bool b, _ => ⟨.bool b, rfl⟩
  | .null, _ => ⟨.null, rfl⟩
  | .arr items, h => by
    rcases expandList_ok var items (by simpa [hasUnresolved] using h) with ⟨items', hi⟩
    exact ⟨.arr items', by simp [expandLeaves, hi]⟩
  | .dict entries, h => by
    rcases expandDict_ok var entries (by simpa [hasUnresolved] using h) with ⟨entries', he⟩
    exact ⟨.dict entries', by simp [expandLeaves, he]⟩

theorem expandList_ok (var : Bindings) :
    ∀ l : ValueList, listHasUnresolved var l = false → ∃ w, expandList var l = .ok w
  | .nil, _ => ⟨.nil, rfl⟩
  | .cons hd tl, h => by
    have h' : hasUnresolved var hd = false ∧ listHasUnresolved var tl = false := by
      simpa [listHasUnresolved, Bool.or_eq_false_iff] using h
    rcases expandLeaves_ok var hd h'.1 with ⟨hd', hhd⟩
    rcases expandList_ok var tl h'.2 with ⟨tl', htl⟩
    exact ⟨.cons hd' tl', by simp [expandList, hhd, htl]⟩

theorem expandDict_ok (var : Bindings) :
    ∀ d : ValueDict, dictHasUnresolved var d = false → ∃ w, expandDict var d = .ok w
  | .nil, _ => ⟨.nil, rfl⟩
  | .cons k v tl, h => by
    have h' : fmtUnresolved var k = false ∧ hasUnresolved var v = false ∧
        dictHasUnresolved var tl = false := by
      simpa [dictHasUnresolved, Bool.or_eq_false_iff, and_assoc] using h
    rcases formatStr_ok_of_resolved var k h'.1 with ⟨ks, hk⟩
    rcases expandLeaves_ok var v h'.2.1 with ⟨v', hv⟩
    rcases expandDict_ok var tl h'.2.2 with ⟨tl', htl⟩
    exact ⟨.cons [.lit ks] v' tl', by simp [expandDict, hk, hv, htl]⟩
end

mutual
theorem expandLeaves_err (var : Bindings) :
    ∀ v : Value, hasUnresolved var v = true →
      ∃ e, expandLeaves var v = .error e ∧ e.bindings = var ∧
        fmtUnresolved var e.leaf = true ∧ strOccurs e.leaf v = true
  | .str s, h => by
    have hs : fmtUnresolved var s = true := by simpa [hasUnresolved] using h
    rcases formatStr_error_of_unresolved var s hs with ⟨n, hn⟩
    exact ⟨⟨s, var⟩, by simp [expandLeaves, hn], rfl, hs, by simp [strOccurs]⟩
  | .arr items, h => by
    rcases expandList_err var items (by simpa [hasUnresolved] using h) with
      ⟨e, he, hb, hu, ho⟩
    exact ⟨e, by simp [expandLeaves, he], hb, hu, by simpa [strOccurs] using ho⟩
  | .dict entries, h => by
    rcases expandDict_err var entries (by simpa [hasUnresolved] using h) with
      ⟨e, he, hb, hu, ho⟩
    exact ⟨e, by simp [expandLeaves, he], hb, hu, by simpa [strOccurs] using ho⟩

theorem expandList_err (var : Bindings) :
    ∀ l : ValueList, listHasUnresolved var l = true →
      ∃ e, expandList var l = .error e ∧ e.bindings = var ∧
        fmtUnresolved var e.leaf = true ∧ strOccursList e.leaf l = true
  | .cons hd tl, h => by
    rcases hhd : hasUnresolved var hd with _ | _
    · have htl : listHasUnresolved var tl = true := by
        simpa [listHasUnresolved, hhd] using h
      rcases expandLeaves_ok var hd hhd with ⟨hd', hok⟩
      rcases expandList_err var tl htl with ⟨e, he, hb, hu, ho⟩
      exact ⟨e, by simp [expandList, hok, he], hb, hu,
        by simp [strOccursList, ho]⟩
    · rcases expandLeaves_err var hd hhd with ⟨e, he, hb, hu, ho⟩
      exact ⟨e, by simp [expandList, he], hb, hu, by simp [strOccursList, ho]⟩

theorem expandDict_err (var : Bindings) :
    ∀ d : ValueDict, dictHasUnresolved var d = true →
      ∃ e, expandDict var d = .error e ∧ e.bindings = var ∧
        fmtUnresolved var e.leaf = true ∧ strOccursDict e.leaf d = true
  | .cons k v tl, h => by
    rcases hk : fmtUnresolved var k with _ | _
    · rcases formatStr_ok_of_resolved var k hk with ⟨ks, hks⟩
      rcases hv : hasUnresolved var v with _ | _
      · have htl : dictHasUnresolved var tl = true := by
          simpa [dictHasUnresolved, hk, hv] using h
        rcases expandLeaves_ok var v hv with ⟨v', hok⟩
        rcases expandDict_err var tl htl with ⟨e, he, hb, hu, ho⟩
        exact ⟨e, by simp [expandDict, hks, hok, he], hb, hu,
          by simp [strOccursDict, ho]⟩
      · rcases expandLeaves_err var v hv with ⟨e, he, hb, hu, ho⟩
        exact ⟨e, by simp [expandDict, hks, he], hb, hu,
          by simp [strOccursDict, ho]⟩
    · rcases formatStr_error_of_unresolved var k hk with ⟨n, hn⟩
      exact ⟨⟨k, var⟩, by simp [expandDict, hn], rfl, hk, by simp [strOccursDict]⟩
end

/-- C4: if any string leaf or mapping key of the tree references a
binding name absent from `var`, then `expand_task_leaves` raises the
typed unresolved-variable error: expansion returns no tree at all
(all-or-nothing, nothing partially substituted), and the error carries
the binding map and an offending string that occurs in the tree and
indeed references an absent name — never a silent empty substitution. -/
theorem expand_task_leaves_unresolved_fails (var : Bindings) (v : Value)
    (h : hasUnresolved var v = true) :
    ∃ e, expandLeaves var v = .error e ∧ e.bindings = var ∧
      fmtUnresolved var e.leaf = true ∧ strOccurs e.leaf v = true :=
  expandLeaves_err var v h

/-- Witness for C4 at a concrete input: a dictionary whose value leaf
references the binding `ghost`, absent from the binding map. -/
theorem expand_task_leaves_unresolved_fails_witness :
    ∃ e, expandLeaves [("user", "u")]
        (.dict (.cons [.lit "k"] (.str [.var "ghost"]) .nil)) = .error e ∧
      e.bindings = [("user", "u")] ∧
      fmtUnresolved [("user", "u")] e.leaf = true ∧
      strOccurs e.leaf (.dict (.cons [.lit "k"] (.str [.var "ghost"]) .nil)) = true :=
  expand_task_leaves_unresolved_fails [("user", "u")]
    (.dict (.cons [.lit "k"] (.str [.var "ghost"]) .nil)) (by decide)

/- ------------------------------------------------------------------ -/
/- Theorems for claim C3 (expansion never mutates the source task).    -/
/- ------------------------------------------------------------------ -/

theorem getD_set_ne {α : Type} (l : List α) (j i : Nat) (a d : α) (h : j ≠ i) :
    (l.set j a).getD i d = l.getD i d := by
  simp [List.getD_eq_getD_get?, List.get?_eq_getElem?, List.getElem?_set_ne h]

/-- C3 fails as stated: with the empty binding map (which `Upset.run`
produces when `foreach` is empty), `expand_task` returns the source
`Task` object itself, and `transform_task_to_data` then rewrites that
object's `files` values in place to remote names — so after one
iteration the original `Task`'s `files` tree has changed. -/
theorem expand_task_empty_map_mutates_source :
    ∃ heap1 d, processIteration [taskA] 0 [] = .ok (heap1, d) ∧
      heap1.getD 0 default ≠ [taskA].getD 0 default := by
  refine ⟨_, _, rfl, fun h => ?_⟩
  have hf := congrArg Task.files h
  revert hf
  decide

/-- C3 amended: for every **nonempty** iteration binding map,
`expand_task` allocates a fresh copy and the whole per-iteration
pipeline (expansion followed by `transform_task_to_data`'s rewriting of
file names to remote names) leaves the source `Task` object unchanged;
each iteration operates on the independent copy.  (With the empty map
the source object itself is used and mutated, see the counterexample.) -/
theorem expand_task_nonempty_map_preserves_source (heap : TaskHeap) (id : Nat)
    (var : Bindings) (hvar : var.isEmpty = false) (hid : id < heap.length)
    (heap' : TaskHeap) (d : TaskData)
    (hrun : processIteration heap id var = .ok (heap', d)) :
    heap'.getD id default = heap.getD id default := by
  rcases hv : expandLeaves var ((heap[id]?).getD default).vars with e | vars'
  · simp [processIteration, expand_task, hvar, hv] at hrun
  · rcases hfl : expandFiles var ((heap[id]?).getD default).files with e | files'
    · simp [processIteration, expand_task, hvar, hv, hfl] at hrun
    · simp [processIteration, expand_task, hvar, hv, hfl,
        transform_task_to_data] at hrun
      obtain ⟨hheap', -⟩ := hrun
      rw [← hheap', List.getD_append _ _ _ _ hid]

/-- Witness for C3 (amended) at a concrete input: a one-task heap and
the nonempty binding map `user ↦ u`. -/
theorem expand_task_nonempty_map_preserves_source_witness :
    ∃ heap' d, processIteration [taskA] 0 [("user", "u")] = .ok (heap', d) ∧
      heap'.getD 0 default = [taskA].getD 0 default := by
  refine ⟨_, _, rfl, ?_⟩
  exact expand_task_nonempty_map_preserves_source [taskA] 0 [("user", "u")]
    (by decide) (by decide) _ _ rfl

/- ------------------------------------------------------------------ -/
/- Theorems for claim C7 (`create_unique_file_name`).                  -/
/- ------------------------------------------------------------------ -/

/-- C7 fails as stated: the remote name is **not** injective on resolved
absolute paths.  The distinct resolved paths `/a/b___c` and `/a/b/c`
yield the same remote name `a___b___c`, because the separator `___` can
also occur inside a path component. -/
theorem create_unique_file_name_collision :
    create_unique_file_name ("/a/b___c".data) =
      create_unique_file_name ("/a/b/c".data) ∧
    ("/a/b___c".data) ≠ ("/a/b/c".data) := by
  decide

/-- Shape of `joinSep` on a nonempty list of parts. -/
theorem joinSep_cons (sep y : List Char) (l : List (List Char)) :
    joinSep sep (y :: l) =
      y ++ (match l with | [] => ([] : List Char) | _ :: _ => sep ++ joinSep sep l) := by
  cases l <;> simp [joinSep]

theorem underscore_free_head_eq (a : List Char) :
    ∀ (b s t : List Char), (∀ c ∈ a, c ≠ '_') → (∀ c ∈ b, c ≠ '_') →
    (s = [] ∨ ∃ u, s = '_' :: u) → (t = [] ∨ ∃ u, t = '_' :: u) →
    a ++ s = b ++ t → a = b ∧ s = t := by
  induction a with
  | nil =>
    intro b s t _ hb hs _ h
    cases b with
    | nil => exact ⟨rfl, by simpa using h⟩
    | cons d b' =>
      simp only [List.nil_append, List.cons_append] at h
      rcases hs with rfl | ⟨u, rfl⟩
      · cases h
      · cases h
        exact absurd rfl (hb '_' (by simp))
  | cons c a' ih =>
    intro b s t ha hb hs ht h
    cases b with
    | nil =>
      simp only [List.cons_append, List.nil_append] at h
      rcases ht with rfl | ⟨u, rfl⟩
      · cases h
      · cases h
        exact absurd rfl (ha '_' (by simp))
    | cons d b' =>
      simp only [List.cons_append, List.cons.injEq] at h
      rcases h with ⟨rfl, h'⟩
      rcases ih b' s t (fun x hx => ha x (by simp [hx]))
        (fun x hx => hb x (by simp [hx])) hs ht h' with ⟨rfl, rfl⟩
      exact ⟨rfl, rfl⟩

theorem joinSep_underscores_inj (xs : List (List Char)) :
    ∀ ys : List (List Char),
    (∀ c ∈ xs, c ≠ [] ∧ ∀ ch ∈ c, ch ≠ '_') →
    (∀ c ∈ ys, c ≠ [] ∧ ∀ ch ∈ c, ch ≠ '_') →
    joinSep sepUnderscores xs = joinSep sepUnderscores ys → xs = ys := by
  induction xs with
  | nil =>
    intro ys _ hy h
    cases ys with
    | nil => rfl
    | cons y ys' =>
      rw [joinSep_cons] at h
      simp only [joinSep] at h
      rcases List.append_eq_nil.mp h.symm with ⟨hy0, -⟩
      exact absurd hy0 (hy y (by simp)).1
  | cons x xs' ih =>
    intro ys hx hy h
    cases ys with
    | nil =>
      rw [joinSep_cons] at h
      simp only [joinSep] at h
      rcases List.append_eq_nil.mp h with ⟨hx0, -⟩
      exact absurd hx0 (hx x (by simp)).1
    | cons y ys' =>
      rw [joinSep_cons, joinSep_cons] at h
      have hhead := underscore_free_head_eq x _ _ _
        (hx x (by simp)).2 (hy y (by simp)).2
        (by cases xs' <;> simp [sepUnderscores]) (by cases ys' <;> simp [sepUnderscores]) h
      rcases hhead with ⟨rfl, hrest⟩
      cases xs' with
      | nil =>
        cases ys' with
        | nil => rfl
        | cons z zs => simp [sepUnderscores] at hrest
      | cons w ws =>
        cases ys' with
        | nil => simp [sepUnderscores] at hrest
        | cons z zs =>
          simp only [sepUnderscores, List.cons_append, List.nil_append,
            List.cons.injEq, true_and] at hrest
          have := ih (z :: zs) (fun c hc => hx c (by simp [hc]))
            (fun c hc => hy c (by simp [hc])) (by simpa [sepUnderscores] using hrest)
          rw [this]

/-- C7 amended: the remote name is a deterministic function of the
resolved absolute path's components, but it is **not** injective in
general (see the collision above); it is injective on paths all of
whose components are nonempty and contain no underscore: for two such
paths, equal remote names force equal component lists (i.e. the same
resolved path). -/
theorem create_unique_file_name_inj_of_no_underscore (p q : List Char)
    (hp : ∀ c ∈ pathComponents p, c ≠ [] ∧ ∀ ch ∈ c, ch ≠ '_')
    (hq : ∀ c ∈ pathComponents q, c ≠ [] ∧ ∀ ch ∈ c, ch ≠ '_')
    (h : create_unique_file_name p = create_unique_file_name q) :
    pathComponents p = pathComponents q :=
  joinSep_underscores_inj (pathComponents p) (pathComponents q) hp hq h

/-- Witness for C7 (amended) at concrete inputs: the underscore-free
paths `/a/b` and `/a//b` (which resolve to the same components). -/
theorem create_unique_file_name_inj_of_no_underscore_witness :
    pathComponents ("/a/b".data) = pathComponents ("/a//b".data) :=
  create_unique_file_name_inj_of_no_underscore ("/a/b".data) ("/a//b".data)
    (by decide) (by decide) (by decide)

/- ------------------------------------------------------------------ -/
/- Theorems for claim C5 and claim C10 (artifact dedup).               -/
/- ------------------------------------------------------------------ -/

theorem chargeF_le_one (st : OrchState) (n : String) : chargeF st n ≤ 1 := by
  unfold chargeF
  split <;> omega

theorem chargeP_le_one (st : OrchState) (p : String) : chargeP st p ≤ 1 := by
  unfold chargeP
  split <;> omega

theorem fileTransfersFor_append (n : String) (l1 l2 : List Transfer) :
    fileTransfersFor n (l1 ++ l2) = fileTransfersFor n l1 ++ fileTransfersFor n l2 := by
  simp [fileTransfersFor]

theorem countFile_append (n : String) (l1 l2 : List Transfer) :
    countFile n (l1 ++ l2) = countFile n l1 + countFile n l2 := by
  simp [countFile, fileTransfersFor_append]

theorem countPlugin_append (p : String) (l1 l2 : List Transfer) :
    countPlugin p (l1 ++ l2) = countPlugin p l1 + countPlugin p l2 := by
  simp [countPlugin]

theorem fileTransfersFor_cons_file (n m r : String) (log : List Transfer) :
    fileTransfersFor n (.file m r :: log) =
      if m = n then .file m r :: fileTransfersFor n log else fileTransfersFor n log := by
  by_cases h : m = n <;> simp [fileTransfersFor, List.filter_cons, h]

theorem send_files_skip (st : OrchState) (m f : String)
    (rest : List (String × String)) (hm : m ∈ st.sent_files) :
    send_files st ((m, f) :: rest) = send_files st rest := by
  simp [send_files, hm]

theorem send_files_step (st : OrchState) (m f : String)
    (rest : List (String × String)) (hm : m ∉ st.sent_files) :
    send_files st ((m, f) :: rest) =
      ((send_files { st with sent_files := st.sent_files ++ [m] } rest).1,
        .file m (uniqueNameStr f) ::
          (send_files { st with sent_files := st.sent_files ++ [m] } rest).2) := by
  simp [send_files, hm]

theorem mem_append_singleton_iff (n m : String) (l : List String) (hmn : m ≠ n) :
    (n ∈ l ++ [m]) ↔ (n ∈ l) := by
  simp only [List.mem_append, List.mem_singleton]
  exact ⟨fun h => h.elim id (fun h2 => absurd h2.symm hmn), Or.inl⟩

theorem send_files_by_name (n : String) :
    ∀ (files : List (String × String)) (st : OrchState),
    fileTransfersFor n (send_files st files).2 =
      if n ∈ st.sent_files then []
      else
        match firstPathFor n files with
        | none => []
        | some p => [.file n (uniqueNameStr p)] := by
  intro files
  induction files with
  | nil =>
    intro st
    by_cases hn : n ∈ st.sent_files <;>
      simp [send_files, fileTransfersFor, firstPathFor, hn]
  | cons hd rest ih =>
    intro st
    obtain ⟨m, f⟩ := hd
    by_cases hmn : m = n
    · subst hmn
      by_cases hm : m ∈ st.sent_files
      · rw [send_files_skip st m f rest hm, ih st]
        rw [if_pos hm, if_pos hm]
      · rw [send_files_step st m f rest hm]
        rw [show ((send_files { st with sent_files := st.sent_files ++ [m] } rest).1,
            Transfer.file m (uniqueNameStr f) ::
              (send_files { st with sent_files := st.sent_files ++ [m] } rest).2).2 =
            Transfer.file m (uniqueNameStr f) ::
              (send_files { st with sent_files := st.sent_files ++ [m] } rest).2 from rfl]
        rw [fileTransfersFor_cons_file, if_pos rfl]
        have hrec := ih { st with sent_files := st.sent_files ++ [m] }
        rw [if_pos (by simp : m ∈ ({ st with sent_files := st.sent_files ++ [m] } : OrchState).sent_files)] at hrec
        rw [hrec, if_neg hm]
        simp [firstPathFor]
    · have hfp : firstPathFor n ((m, f) :: rest) = firstPathFor n rest := by
        simp [firstPathFor, hmn]
      by_cases hm : m ∈ st.sent_files
      · rw [send_files_skip st m f rest hm, ih st, hfp]
      · rw [send_files_step st m f rest hm]
        rw [show ((send_files { st with sent_files := st.sent_files ++ [m] } rest).1,
            Transfer.file m (uniqueNameStr f) ::
              (send_files { st with sent_files := st.sent_files ++ [m] } rest).2).2 =
            Transfer.file m (uniqueNameStr f) ::
              (send_files { st with sent_files := st.sent_files ++ [m] } rest).2 from rfl]
        rw [fileTransfersFor_cons_file, if_neg hmn]
        have hrec := ih { st with sent_files := st.sent_files ++ [m] }
        rw [hfp]
        by_cases hn : n ∈ st.sent_files
        · rw [if_pos (show n ∈ st.sent_files ++ [m] from
            (mem_append_singleton_iff n m st.sent_files hmn).mpr hn)] at hrec
          rw [hrec, if_pos hn]
        · rw [if_neg (fun hc => hn ((mem_append_singleton_iff n m st.sent_files hmn).mp hc))] at hrec
          rw [hrec, if_neg hn]

theorem send_files_state (files : List (String × String)) :
    ∀ st : OrchState,
    (send_files st files).1.sent_plugins = st.sent_plugins ∧
    ∃ l, (send_files st files).1.sent_files = st.sent_files ++ l := by
  induction files with
  | nil => exact fun st => ⟨rfl, [], (List.append_nil _).symm⟩
  | cons hd rest ih =>
    intro st
    obtain ⟨m, f⟩ := hd
    by_cases hm : m ∈ st.sent_files
    · rw [send_files_skip st m f rest hm]
      exact ih st
    · rw [send_files_step st m f rest hm]
      rcases ih { st with sent_files := st.sent_files ++ [m] } with ⟨hp, l, hl⟩
      exact ⟨hp, [m] ++ l, by simpa [List.append_assoc] using hl⟩

theorem send_files_mem (files : List (String × String)) :
    ∀ (st : OrchState) (n : String),
    (n ∈ (send_files st files).1.sent_files) ↔
      (n ∈ st.sent_files ∨ (firstPathFor n files).isSome = true) := by
  induction files with
  | nil =>
    intro st n
    simp [send_files, firstPathFor]
  | cons hd rest ih =>
    intro st n
    obtain ⟨m, f⟩ := hd
    by_cases hm : m ∈ st.sent_files
    · rw [send_files_skip st m f rest hm, ih]
      by_cases hmn : m = n
      · subst hmn
        simp [firstPathFor, hm]
      · rw [show firstPathFor n ((m, f) :: rest) = firstPathFor n rest from by
          simp [firstPathFor, hmn]]
    · rw [send_files_step st m f rest hm]
      rw [show ((send_files { st with sent_files := st.sent_files ++ [m] } rest).1,
          Transfer.file m (uniqueNameStr f) ::
            (send_files { st with sent_files := st.sent_files ++ [m] } rest).2).1 =
          (send_files { st with sent_files := st.sent_files ++ [m] } rest).1 from rfl]
      rw [ih]
      by_cases hmn : m = n
      · subst hmn
        simp [firstPathFor]
      · rw [show firstPathFor n ((m, f) :: rest) = firstPathFor n rest from by
          simp [firstPathFor, hmn]]
        exact or_congr (mem_append_singleton_iff n m st.sent_files hmn) Iff.rfl


theorem send_files_invF (files : List (String × String)) (st : OrchState) (n : String) :
    countFile n (send_files st files).2 + chargeF st n ≤
      chargeF (send_files st files).1 n := by
  rw [countFile, send_files_by_name n files st]
  by_cases hn : n ∈ st.sent_files
  · have hmem : n ∈ (send_files st files).1.sent_files :=
      (send_files_mem files st n).mpr (Or.inl hn)
    simp [hn, chargeF, hmem]
  · rcases hfp : firstPathFor n files with _ | p
    · rw [if_neg hn]
      simp [chargeF, hn]
    · have hmem : n ∈ (send_files st files).1.sent_files :=
        (send_files_mem files st n).mpr (Or.inr (by simp [hfp]))
      simp [hn, hfp, chargeF, hmem]

theorem countPlugin_cons_file (q m r : String) (log : List Transfer) :
    countPlugin q (.file m r :: log) = countPlugin q log := by
  simp [countPlugin, List.filter_cons]

theorem send_plugin_state (st : OrchState) (p : String) :
    (send_plugin st p).1.sent_files = st.sent_files ∧
    ∃ l, (send_plugin st p).1.sent_plugins = st.sent_plugins ++ l := by
  by_cases hp : p ∈ st.sent_plugins
  · exact ⟨by simp [send_plugin, hp], [], by simp [send_plugin, hp]⟩
  · exact ⟨by simp [send_plugin, hp], [p], by simp [send_plugin, hp]⟩

theorem send_plugin_no_file (st : OrchState) (p n : String) :
    countFile n (send_plugin st p).2 = 0 := by
  by_cases hp : p ∈ st.sent_plugins <;>
    simp [send_plugin, hp, countFile, fileTransfersFor]

theorem send_files_no_plugin (q : String) (files : List (String × String)) :
    ∀ st, countPlugin q (send_files st files).2 = 0 := by
  induction files with
  | nil =>
    intro st
    simp [send_files, countPlugin]
  | cons hd rest ih =>
    intro st
    obtain ⟨m, f⟩ := hd
    by_cases hm : m ∈ st.sent_files
    · rw [send_files_skip st m f rest hm]
      exact ih st
    · rw [send_files_step st m f rest hm]
      rw [show ((send_files { st with sent_files := st.sent_files ++ [m] } rest).1,
          Transfer.file m (uniqueNameStr f) ::
            (send_files { st with sent_files := st.sent_files ++ [m] } rest).2).2 =
          Transfer.file m (uniqueNameStr f) ::
            (send_files { st with sent_files := st.sent_files ++ [m] } rest).2 from rfl]
      rw [countPlugin_cons_file]
      exact ih { st with sent_files := st.sent_files ++ [m] }

theorem send_plugin_invP (st : OrchState) (p q : String) :
    countPlugin q (send_plugin st p).2 + chargeP st q ≤
      chargeP (send_plugin st p).1 q := by
  by_cases hp : p ∈ st.sent_plugins
  · simp [send_plugin, hp, countPlugin, chargeP]
  · by_cases hpq : p = q
    · subst hpq
      simp [send_plugin, hp, countPlugin, chargeP, List.filter_cons]
    · have hiff := mem_append_singleton_iff q p st.sent_plugins hpq
      by_cases hq : q ∈ st.sent_plugins
      · simp [send_plugin, hp, countPlugin, chargeP, List.filter_cons, hpq,
          hq, hiff.mpr hq]
      · simp [send_plugin, hp, countPlugin, chargeP, List.filter_cons, hpq,
          hq, fun hc => hq (hiff.mp hc)]

theorem runIterations_state (iters : List (List (String × String))) :
    ∀ st : OrchState,
    (runIterations st iters).1.sent_plugins = st.sent_plugins ∧
    ∃ l, (runIterations st iters).1.sent_files = st.sent_files ++ l := by
  induction iters with
  | nil => exact fun st => ⟨rfl, [], (List.append_nil _).symm⟩
  | cons files rest ih =>
    intro st
    rcases send_files_state files st with ⟨hp1, l1, hf1⟩
    rcases ih (send_files st files).1 with ⟨hp2, l2, hf2⟩
    have hfst : (runIterations st (files :: rest)).1 =
        (runIterations (send_files st files).1 rest).1 := rfl
    refine ⟨by rw [hfst, hp2, hp1], l1 ++ l2, ?_⟩
    rw [hfst, hf2, hf1, List.append_assoc]

theorem runIterations_invF (iters : List (List (String × String))) :
    ∀ (st : OrchState) (n : String),
    countFile n (runIterations st iters).2 + chargeF st n ≤
      chargeF (runIterations st iters).1 n := by
  induction iters with
  | nil =>
    intro st n
    simp [runIterations, countFile, fileTransfersFor]
  | cons files rest ih =>
    intro st n
    have h1 := send_files_invF files st n
    have h2 := ih (send_files st files).1 n
    have hlog : (runIterations st (files :: rest)).2 =
        (send_files st files).2 ++ (runIterations (send_files st files).1 rest).2 := rfl
    have hfst : (runIterations st (files :: rest)).1 =
        (runIterations (send_files st files).1 rest).1 := rfl
    rw [hlog, hfst, countFile_append]
    omega

theorem runIterations_no_plugin (q : String) (iters : List (List (String × String))) :
    ∀ st : OrchState, countPlugin q (runIterations st iters).2 = 0 := by
  induction iters with
  | nil =>
    intro st
    simp [runIterations, countPlugin]
  | cons files rest ih =>
    intro st
    have hlog : (runIterations st (files :: rest)).2 =
        (send_files st files).2 ++ (runIterations (send_files st files).1 rest).2 := rfl
    rw [hlog, countPlugin_append, send_files_no_plugin q files st,
      ih (send_files st files).1]

theorem runPlan_state (plan : List PlanTask) :
    ∀ st : OrchState,
    (∃ lp, (runPlan st plan).1.sent_plugins = st.sent_plugins ++ lp) ∧
    (∃ lf, (runPlan st plan).1.sent_files = st.sent_files ++ lf) := by
  induction plan with
  | nil =>
    exact fun st => ⟨⟨[], (List.append_nil _).symm⟩, ⟨[], (List.append_nil _).symm⟩⟩
  | cons task rest ih =>
    intro st
    rcases send_plugin_state st task.plugin with ⟨hf1, l1, hp1⟩
    rcases runIterations_state task.iterations (send_plugin st task.plugin).1 with
      ⟨hp2, l2, hf2⟩
    rcases ih (runIterations (send_plugin st task.plugin).1 task.iterations).1 with
      ⟨⟨lp3, hp3⟩, ⟨lf3, hf3⟩⟩
    have hfst : (runPlan st (task :: rest)).1 =
        (runPlan (runIterations (send_plugin st task.plugin).1 task.iterations).1
          rest).1 := rfl
    constructor
    · exact ⟨l1 ++ lp3, by rw [hfst, hp3, hp2, hp1, List.append_assoc]⟩
    · exact ⟨l2 ++ lf3, by rw [hfst, hf3, hf2, hf1, List.append_assoc]⟩

theorem runPlan_invF (plan : List PlanTask) :
    ∀ (st : OrchState) (n : String),
    countFile n (runPlan st plan).2 + chargeF st n ≤
      chargeF (runPlan st plan).1 n := by
  induction plan with
  | nil =>
    intro st n
    simp [runPlan, countFile, fileTransfersFor]
  | cons task rest ih =>
    intro st n
    have h0 := send_plugin_no_file st task.plugin n
    have hspf : (send_plugin st task.plugin).1.sent_files = st.sent_files :=
      (send_plugin_state st task.plugin).1
    have h1 := runIterations_invF task.iterations (send_plugin st task.plugin).1 n
    have h2 := ih (runIterations (send_plugin st task.plugin).1 task.iterations).1 n
    have hch : chargeF (send_plugin st task.plugin).1 n = chargeF st n := by
      simp [chargeF, hspf]
    rw [hch] at h1
    have hlog : (runPlan st (task :: rest)).2 =
        (send_plugin st task.plugin).2 ++
          (runIterations (send_plugin st task.plugin).1 task.iterations).2 ++
          (runPlan (runIterations (send_plugin st task.plugin).1 task.iterations).1
            rest).2 := rfl
    have hfst : (runPlan st (task :: rest)).1 =
        (runPlan (runIterations (send_plugin st task.plugin).1 task.iterations).1
          rest).1 := rfl
    rw [hlog, hfst, countFile_append, countFile_append]
    omega

theorem runPlan_invP (plan : List PlanTask) :
    ∀ (st : OrchState) (q : String),
    countPlugin q (runPlan st plan).2 + chargeP st q ≤
      chargeP (runPlan st plan).1 q := by
  induction plan with
  | nil =>
    intro st q
    simp [runPlan, countPlugin]
  | cons task rest ih =>
    intro st q
    have h0 := send_plugin_invP st task.plugin q
    have h1 := runIterations_no_plugin q task.iterations (send_plugin st task.plugin).1
    have hplug : (runIterations (send_plugin st task.plugin).1 task.iterations).1.sent_plugins =
        (send_plugin st task.plugin).1.sent_plugins :=
      (runIterations_state task.iterations _).1
    have h2 := ih (runIterations (send_plugin st task.plugin).1 task.iterations).1 q
    have hch : chargeP (runIterations (send_plugin st task.plugin).1 task.iterations).1 q =
        chargeP (send_plugin st task.plugin).1 q := by
      simp [chargeP, hplug]
    rw [hch] at h2
    have hlog : (runPlan st (task :: rest)).2 =
        (send_plugin st task.plugin).2 ++
          (runIterations (send_plugin st task.plugin).1 task.iterations).2 ++
          (runPlan (runIterations (send_plugin st task.plugin).1 task.iterations).1
            rest).2 := rfl
    have hfst : (runPlan st (task :: rest)).1 =
        (runPlan (runIterations (send_plugin st task.plugin).1 task.iterations).1
          rest).1 := rfl
    rw [hlog, hfst, countPlugin_append, countPlugin_append, h1]
    omega

/-- C5: across a whole plan run started from the orchestrator's initial
empty dedup state, every plugin name and every logical file name is
transferred to the remote workspace at most once, no matter how many
tasks or foreach iterations reference it; and the sent-plugin and
sent-file lists only ever grow (every run step appends, never removes). -/
theorem run_plan_transfers_at_most_once (plan : List PlanTask) :
    (∀ p, countPlugin p (runPlan ⟨[], []⟩ plan).2 ≤ 1) ∧
    (∀ n, countFile n (runPlan ⟨[], []⟩ plan).2 ≤ 1) ∧
    (∀ st, (∃ lp, (runPlan st plan).1.sent_plugins = st.sent_plugins ++ lp) ∧
           (∃ lf, (runPlan st plan).1.sent_files = st.sent_files ++ lf)) := by
  refine ⟨fun p => ?_, fun n => ?_, fun st => runPlan_state plan st⟩
  · have h := runPlan_invP plan ⟨[], []⟩ p
    have hle := chargeP_le_one (runPlan ⟨[], []⟩ plan).1 p
    have hz : chargeP ⟨[], []⟩ p = 0 := by simp [chargeP]
    omega
  · have h := runPlan_invF plan ⟨[], []⟩ n
    have hle := chargeF_le_one (runPlan ⟨[], []⟩ plan).1 n
    have hz : chargeF ⟨[], []⟩ n = 0 := by simp [chargeF]
    omega

/-- C10: `send_files` deduplicates by logical file name, not by source
path: the transfers carrying name `n` are empty whenever `n` is already
recorded as sent — regardless of the (possibly different) path now
bound to `n` — and otherwise consist of exactly one transfer of the
first path bound to `n` in the files mapping; any later references to
the same name, even with different paths, are skipped. -/
theorem send_files_dedup_by_logical_name (st : OrchState)
    (files : List (String × String)) (n : String) :
    fileTransfersFor n (send_files st files).2 =
      if n ∈ st.sent_files then []
      else
        match firstPathFor n files with
        | none => []
        | some p => [.file n (uniqueNameStr p)] :=
  send_files_by_name n files st

/- ------------------------------------------------------------------ -/
/- Theorems for claim C6 (`ensure_perms` with unknown owner/group).    -/
/- ------------------------------------------------------------------ -/

/-- C6 fails as stated: with current mode `0o644` and the permission
string `ghost,-,755` naming the unknown owner `ghost`, `ensure_perms`
first applies the mode change (`0o644` becomes `0o755`, so a change
**was** attempted and persists) and then fails with the uncaught
Python `KeyError` from `pwd.getpwnam` — not with a `UpsetFsError`
wrapping an OS error. -/
theorem ensure_perms_unknown_owner_counterexample :
    ensure_perms ⟨["root"], ["root"]⟩ false ⟨493, "root", "root"⟩
        ⟨420, "root", "root"⟩ "ghost,-,755" =
      (⟨493, "root", "root"⟩, some (.keyError "ghost")) ∧
    (⟨493, "root", "root"⟩ : FileMeta) ≠ ⟨420, "root", "root"⟩ := by
  decide

/-- C6 amended: when the requested owner is unknown to the user
database, differs from the current owner and is not the keep-marker
`-`, the apply step fails with the uncaught `KeyError` naming that
owner (never a FilesystemError), **after** any requested mode change
has already been applied; the owner and group of the path are left
unchanged. -/
theorem ensure_perms_unknown_owner_spec (db : SysDb) (meta : FileMeta)
    (o g m : String) (ho1 : o ∉ db.users) (ho2 : o ≠ meta.owner) (ho3 : o ≠ "-") :
    applyPerms db meta o g m =
      ({ meta with mode := if m ≠ octString meta.mode ∧ m ≠ "-"
          then parseOct m else meta.mode },
        some (.keyError o)) := by
  by_cases hm : m ≠ octString meta.mode ∧ m ≠ "-" <;>
    simp [applyPerms, hm, ho1, ho2, ho3]

/-- Witness for C6 (amended) at a concrete input. -/
theorem ensure_perms_unknown_owner_spec_witness :
    applyPerms ⟨["root"], ["root"]⟩ ⟨420, "root", "root"⟩ "ghost" "-" "755" =
      ({ (⟨420, "root", "root"⟩ : FileMeta) with
          mode := if ("755" ≠ octString 420 ∧ "755" ≠ "-")
            then parseOct "755" else 420 },
        some (.keyError "ghost")) :=
  ensure_perms_unknown_owner_spec ⟨["root"], ["root"]⟩ ⟨420, "root", "root"⟩
    "ghost" "-" "755" (by decide) (by decide) (by decide)

/- ------------------------------------------------------------------ -/
/- Theorems for claim C8 (`ensure_link`).                              -/
/- ------------------------------------------------------------------ -/

theorem entryAt_removeEntry_ne (fs : FsState) (p q : String) (h : q ≠ p) :
    entryAt (removeEntry fs p) q = entryAt fs q := by
  induction fs with
  | nil => rfl
  | cons hd rest ih =>
    obtain ⟨r, e⟩ := hd
    have hpq : p ≠ q := fun hc => h hc.symm
    by_cases hr : r = p
    · simp [removeEntry, entryAt, hr, hpq, ih]
    · by_cases hq : r = q
      · simp [removeEntry, entryAt, hr, hq, h]
      · simp [removeEntry, entryAt, hr, hq, ih]

theorem entryAt_setEntry_ne (fs : FsState) (p q : String) (e : Entry) (h : q ≠ p) :
    entryAt (setEntry fs p e) q = entryAt fs q := by
  rw [setEntry, entryAt, if_neg (fun hc => h hc.symm), entryAt_removeEntry_ne fs p q h]

/-- C8 fails as stated: with `backup = true` and `p` holding an
existing symlink to `q` that does **not** resolve to the same file as
the target `t`, `ensure_link` unlinks the symlink directly and creates
the new link, but no backup `p~` is created — the incorrect symlink is
removed outside the backup policy, while the claim only exempts an
existing *correct* symlink from being backed up. -/
theorem ensure_link_no_backup_counterexample :
    ((ensure_link fsLink "p" "t" true).map
      (fun fs1 => (entryAt fs1 "p", entryAt fs1 (backupPath "p" 0)))) =
        some (.symlink "t", .absent) ∧
    entryAt fsLink "p" = .symlink "q" ∧
    sameFile fsLink (resolvePath fsLink "p") "t" = false ∧
    existsAt fsLink "p" = true := by
  decide

/-- C8 amended: `ensure_link` is idempotent — when `path` is already a
symlink resolving to the same underlying file as `target`, nothing at
all is changed (no backup, no removal, no new link).  When `path` is a
symlink that does not so resolve, it is unlinked **without backup**
(regardless of the backup flag) and replaced by a symlink to `target`,
every other path being left untouched.  When a non-symlink entry
exists at `path`, it is removed by `Fs.remove` honouring the backup
policy and the new symlink is then created; when nothing exists at
`path` the symlink is simply created. -/
theorem ensure_link_spec (fs : FsState) (path target : String) (b : Bool) :
    (isSymlink fs path = true →
      (existsAt fs path && existsAt fs target &&
        sameFile fs (resolvePath fs path) target) = true →
      ensure_link fs path target b = some fs) ∧
    (isSymlink fs path = true →
      (existsAt fs path && existsAt fs target &&
        sameFile fs (resolvePath fs path) target) = false →
      ensure_link fs path target b =
        some (setEntry (removeEntry fs path) path (.symlink target)) ∧
      ∀ q, q ≠ path →
        entryAt (setEntry (removeEntry fs path) path (.symlink target)) q =
          entryAt fs q) ∧
    (isSymlink fs path = false → existsAt fs path = true →
      ensure_link fs path target b =
        (fsRemove fs path b).map (fun fs1 => setEntry fs1 path (.symlink target))) ∧
    (isSymlink fs path = false → existsAt fs path = false →
      ensure_link fs path target b = some (setEntry fs path (.symlink target))) := by
  refine ⟨fun h1 h2 => ?_, fun h1 h2 => ⟨?_, fun q hq => ?_⟩,
    fun h1 h2 => ?_, fun h1 h2 => ?_⟩
  · simp [ensure_link, h1, h2]
  · simp [ensure_link, h1, h2]
  · rw [entryAt_setEntry_ne _ _ _ _ hq, entryAt_removeEntry_ne _ _ _ hq]
  · rcases hr : fsRemove fs path b with _ | fs1 <;>
      simp [ensure_link, h1, h2, hr]
  · simp [ensure_link, h1, h2]

/-- Witness for C8 (amended) at a concrete input: a correct symlink is
left untouched. -/
theorem ensure_link_spec_witness :
    ensure_link fsLinkOk "p" "t" true = some fsLinkOk :=
  (ensure_link_spec fsLinkOk "p" "t" true).1 (by decide) (by decide)

/- ------------------------------------------------------------------ -/
/- Theorems for claim C9 (`ensure_in_file`).                           -/
/- ------------------------------------------------------------------ -/

/-- C9: `ensure_in_file` creates the file when absent (the result holds
the content of a file that exists in every case; an absent file enters
as the empty haystack); when no needle is given, `text` itself is the
search pattern; if the pattern already matches the content the call is
a no-op — no backup, no write, content unchanged; otherwise a backup is
made exactly when requested and the new content is the single
regex-substitution pass `re.sub(insert_at, text, haystack)`.  For any
`re.sub` implementing Python's end-of-string anchor, the default
`insert_at` therefore appends `text` at the end of the file. -/
theorem ensure_in_file_spec (re : Re)
    (hZ : ∀ r s, re.sub zEnd r s = s ++ r)
    (content0 : Option String) (text needle : String) (b : Bool) :
    (∀ insert_at,
      (re.search (if needle = "" then text else needle) (fileText content0) = true →
        ensure_in_file re content0 text insert_at needle b =
          ⟨fileText content0, false, false⟩) ∧
      (re.search (if needle = "" then text else needle) (fileText content0) = false →
        ensure_in_file re content0 text insert_at needle b =
          ⟨re.sub insert_at text (fileText content0), b, true⟩)) ∧
    (re.search (if needle = "" then text else needle) (fileText content0) = false →
      ensure_in_file re content0 text zEnd needle b =
        ⟨fileText content0 ++ text, b, true⟩) := by
  refine ⟨fun insert_at => ⟨fun h => ?_, fun h => ?_⟩, fun h => ?_⟩
  · simp [ensure_in_file, h]
  · simp [ensure_in_file, h]
  · simp [ensure_in_file, h, hZ]

/-- Witness for C9 at a concrete input: file content `a`, text `b`, no
needle, default insertion anchor, backup requested — the text is
appended and a backup made. -/
theorem ensure_in_file_spec_witness :
    ensure_in_file reLit (some "a") "b" zEnd "" true = ⟨"ab", true, true⟩ :=
  (ensure_in_file_spec reLit (fun r s => by simp [reLit, zEnd])
    (some "a") "b" "" true).2 (by decide)

end Upset
